import Mathlib

/-!
Verification of the request-resolution pipeline of servedir (src/main.rs), a
single-binary HTTP server exposing one directory tree over HTTP.

The embedding targets the Unix build of the program: the std::path operations
used by the source (components, strip_prefix, join, starts_with, parent,
file_name, extension, ancestors) are modelled over List Char with Unix
separator semantics.  Component::Prefix (a Windows drive/UNC prefix) is
uninhabited on Unix and therefore has no constructor here, and the
cfg(windows) backslash replacement in write_file_list compiles to nothing.

Byte strings are List Nat (entries < 256); text is List Char / String.  The
filesystem and the HTTP transport are external collaborators, modelled as an
explicit function record (FS) and a response record (HttpResponse).  A
streaming file body carries the file path instead of its bytes; no claim
depends on the streamed contents.
-/

/-! ## Percent-decoding: percent_encoding::percent_decode (main.rs line 131).
An invalid sequence after a percent sign is passed through verbatim, exactly
as the percent_encoding crate does. -/

def hexVal (b : Nat) : Option Nat :=
  if 48 ≤ b ∧ b ≤ 57 then some (b - 48)
  else if 65 ≤ b ∧ b ≤ 70 then some (b - 55)
  else if 97 ≤ b ∧ b ≤ 102 then some (b - 87)
  else none

/-- Worker for percentDecode.  Each step consumes at least one input byte
and one unit of fuel, so fuel equal to the input length is always enough;
the fuel-exhausted case is only reachable on an empty input. -/
def percentDecodeGo : Nat → List Nat → List Nat
  | 0, _ => []
  | _ + 1, [] => []
  | fuel + 1, b :: rest =>
    if b = 37 then
      match rest with
      | h1 :: h2 :: rest2 =>
        match hexVal h1, hexVal h2 with
        | some x, some y => (16 * x + y) :: percentDecodeGo fuel rest2
        | _, _ => b :: percentDecodeGo fuel (h1 :: h2 :: rest2)
      | _ => b :: percentDecodeGo fuel rest
    else b :: percentDecodeGo fuel rest

def percentDecode (l : List Nat) : List Nat := percentDecodeGo l.length l

/-! ## UTF-8 validation and decoding: str::from_utf8 as used by
Cow::decode_utf8 (main.rs line 132).  Overlong encodings, surrogates and
values above 0x10FFFF are rejected, matching the Rust validator. -/

def isCont (b : Nat) : Bool := 128 ≤ b ∧ b < 192

def utf8Decode : List Nat → Option (List Char)
  | [] => some []
  | b :: rest =>
    if b < 128 then (utf8Decode rest).map (Char.ofNat b :: ·)
    else if b < 194 then none
    else if b < 224 then
      match rest with
      | b1 :: rest1 =>
        if isCont b1 then
          (utf8Decode rest1).map (Char.ofNat ((b - 192) * 64 + (b1 - 128)) :: ·)
        else none
      | [] => none
    else if b < 240 then
      match rest with
      | b1 :: b2 :: rest2 =>
        let v := (b - 224) * 4096 + (b1 - 128) * 64 + (b2 - 128)
        if isCont b1 ∧ isCont b2 ∧ 2048 ≤ v ∧ (v < 55296 ∨ 57344 ≤ v) then
          (utf8Decode rest2).map (Char.ofNat v :: ·)
        else none
      | _ => none
    else if b < 245 then
      match rest with
      | b1 :: b2 :: b3 :: rest3 =>
        let v := (b - 240) * 262144 + (b1 - 128) * 4096 + (b2 - 128) * 64 + (b3 - 128)
        if isCont b1 ∧ isCont b2 ∧ isCont b3 ∧ 65536 ≤ v ∧ v < 1114112 then
          (utf8Decode rest3).map (Char.ofNat v :: ·)
        else none
      | _ => none
    else none

/-- Standard UTF-8 encoding of one scalar value (for turning model strings
back into the bytes a client would send). -/
def charUtf8 (c : Char) : List Nat :=
  let n := c.toNat
  if n < 128 then [n]
  else if n < 2048 then [192 + n / 64, 128 + n % 64]
  else if n < 65536 then [224 + n / 4096, 128 + n / 64 % 64, 128 + n % 64]
  else [240 + n / 262144, 128 + n / 4096 % 64, 128 + n / 64 % 64, 128 + n % 64]

def strBytes (s : String) : List Nat := s.data.flatMap charUtf8

/-! ## std::path on Unix.

A path is a List Char.  Parsing into components follows the std::path::Components
iterator: an initial separator yields RootDir, a leading lone dot (with no
root) yields CurDir, empty and interior dot chunks are dropped, a ".." chunk
is ParentDir, anything else is a Normal component. -/

inductive PathComponent
  | rootDir
  | curDir
  | parentDir
  | normal (name : List Char)
  deriving DecidableEq, Repr

/-- Split a character list on the Unix separator. -/
def splitSlash : List Char → List (List Char)
  | [] => [[]]
  | c :: rest =>
    if c = '/' then [] :: splitSlash rest
    else
      match splitSlash rest with
      | g :: gs => (c :: g) :: gs
      | [] => [[c]]

def chunkToComp (g : List Char) : Option PathComponent :=
  if g = [] ∨ g = ['.'] then none
  else if g = ['.', '.'] then some .parentDir
  else some (.normal g)

def componentsL (l : List Char) : List PathComponent :=
  let body := (splitSlash l).filterMap chunkToComp
  if l.head? = some '/' then .rootDir :: body
  else if l = ['.'] ∨ l.take 2 = ['.', '/'] then .curDir :: body
  else body

/-- Canonical text of a component (used when std::path rebuilds a parent
path from its components). -/
def compText : PathComponent → List Char
  | .rootDir => ['/']
  | .curDir => ['.']
  | .parentDir => ['.', '.']
  | .normal n => n

/-- Text of the slash-joined non-root components. -/
def joinSlash : List (List Char) → List Char
  | [] => []
  | [s] => s
  | s :: rest => s ++ '/' :: joinSlash rest

/-- Rebuild the textual path of a component list, as Components::as_path
produces it after a component has been consumed from the back. -/
def compsToText : List PathComponent → List Char
  | .rootDir :: rest => '/' :: joinSlash (rest.map compText)
  | cs => joinSlash (cs.map compText)

/-- Path::file_name: the last component when it is a Normal component. -/
def fileNameL (l : List Char) : Option (List Char) :=
  match (componentsL l).getLast? with
  | some (.normal n) => some n
  | _ => none

/-- Path::parent: drop the last component; none when the path is empty or
terminates in the root. -/
def parentL (l : List Char) : Option (List Char) :=
  let cs := componentsL l
  match cs.getLast? with
  | some (.normal _) | some .curDir | some .parentDir => some (compsToText cs.dropLast)
  | _ => none

/-- Path::ancestors via iterated parent.  Each parent has exactly one
component fewer, so a fuel of the component count is always sufficient; the
fuel-exhausted case can only be reached at the empty relative path, whose
parent is none anyway. -/
def ancestorsGo : Nat → List Char → List (List Char)
  | 0, l => [l]
  | fuel + 1, l =>
    l :: (match parentL l with
          | none => []
          | some p => ancestorsGo fuel p)

def ancestorsL (l : List Char) : List (List Char) :=
  ancestorsGo (componentsL l).length l

/-- Path::strip_prefix("/") (main.rs line 137): succeeds exactly when the
path starts with the root, and returns the remaining text with the leading
separators trimmed, as Components::as_path does. -/
def stripRootL (l : List Char) : Option (List Char) :=
  if l.head? = some '/' then some (l.dropWhile (fun c => c = '/')) else none

/-- The component check of main.rs lines 141-147.  The source also matches
Component::Prefix, which cannot occur on Unix and hence has no case here. -/
def goesUpL (l : List Char) : Bool :=
  (componentsL l).any fun c =>
    match c with
    | .parentDir => true
    | .rootDir => true
    | _ => false

/-- Path::join, i.e. PathBuf::push of a second path (main.rs line 149):
an absolute right operand replaces the left one; otherwise a separator is
inserted unless the left operand is empty or already ends with one. -/
def pathJoinL (base rel : List Char) : List Char :=
  if rel.head? = some '/' then rel
  else if base = [] then rel
  else if base.getLast? = some '/' then base ++ rel
  else base ++ '/' :: rel

/-- Path::starts_with (main.rs line 150): component-wise prefix test. -/
def pathStartsWithL (p base : List Char) : Bool :=
  (componentsL base).isPrefixOf (componentsL p)

/-- Path::extension: the part of file_name after its last dot, provided the
part before that dot is nonempty; Some "" for a trailing dot, none for a
leading lone dot or a dotless name. -/
def extensionL (p : List Char) : Option (List Char) :=
  match fileNameL p with
  | none => none
  | some n =>
    if n.contains '.' then
      let ext := (n.reverse.takeWhile (fun c => c ≠ '.')).reverse
      let before := n.take (n.length - ext.length - 1)
      if before = [] then none else some ext
    else none

/-! ## Filesystem and HTTP collaborators. -/

inductive FileType
  | dir
  | file
  | other
  deriving DecidableEq, Repr

structure Metadata where
  fileType : FileType
  len : Nat
  deriving DecidableEq, Repr

def Metadata.isDir (m : Metadata) : Bool :=
  match m.fileType with
  | .dir => true
  | _ => false

def Metadata.isFile (m : Metadata) : Bool :=
  match m.fileType with
  | .file => true
  | _ => false

/-- io::ErrorKind as classified by io_error (main.rs lines 216-220): the
source distinguishes NotFound and PermissionDenied and lumps every other
kind together. -/
inductive ErrorKind
  | notFound
  | permissionDenied
  | other
  deriving DecidableEq, Repr

/-- An io::Error: its kind plus its Display text (the underlying cause shown
to humans). -/
structure IoError where
  kind : ErrorKind
  msg : String
  deriving DecidableEq, Repr

instance {ε α : Type} [DecidableEq ε] [DecidableEq α] : DecidableEq (Except ε α) :=
  fun x y =>
    match x, y with
    | .error a, .error b => decidable_of_iff (a = b) (by simp)
    | .ok a, .ok b => decidable_of_iff (a = b) (by simp)
    | .error _, .ok _ => isFalse (by simp)
    | .ok _, .error _ => isFalse (by simp)

/-- One child of a listed directory: the raw bytes of its file name (an
OsStr, possibly not valid UTF-8) and the result of its metadata call. -/
structure DirEntry where
  fileName : List Nat
  meta : Except IoError Metadata
  deriving DecidableEq

/-- The filesystem capability consumed by the core: one metadata query per
resolution, a directory enumeration, and a file open. -/
structure FS where
  metadata : List Char → Except IoError Metadata
  readDir : List Char → Except IoError (List DirEntry)
  openFile : List Char → Except IoError Unit

inductive ResponseBody
  | text (s : String)
  | fileStream (path : List Char)
  deriving DecidableEq, Repr

/-- An HTTP response as the core builds it: status, the two headers the core
ever sets, and the body.  A header the source never sets is none. -/
structure HttpResponse where
  status : Nat
  contentType : Option String
  contentLength : Option Nat
  body : ResponseBody
  deriving DecidableEq, Repr

/-! ## Content type: get_content_type (main.rs lines 194-207).
The strings are the Display form of the mime crate constants the source
returns: TEXT_CSS_UTF_8, TEXT_HTML_UTF_8, APPLICATION_JSON,
TEXT_PLAIN_UTF_8, TEXT_XML and APPLICATION_OCTET_STREAM. -/

def getContentTypeL (p : List Char) : String :=
  match extensionL p with
  | none => "application/octet-stream"
  | some e =>
    if e = "css".data then "text/css; charset=utf-8"
    else if e = "htm".data ∨ e = "html".data then "text/html; charset=utf-8"
    else if e = "json".data then "application/json"
    else if e = "txt".data then "text/plain; charset=utf-8"
    else if e = "xml".data then "text/xml"
    else "application/octet-stream"

def getContentType (p : String) : String := getContentTypeL p.data

/-! ## Size formatting: pretty_size (main.rs lines 319-324) over
number_prefix::decimal_prefix.

The crate works on f64; the model uses exact rationals.  For byte counts
cast from u64 every division by 1000 performed here is exact in f64 as long
as the quotient stays within 2^53, and the formatted quantities in the
claims (0, 999, 1.0, 1.5) are exactly representable, so the rational and
the floating computation agree on every value a theorem below evaluates. -/

inductive SizeScale
  | standalone (x : ℚ)
  | scaled (i : Nat) (x : ℚ)
  deriving DecidableEq, Repr

/-- Division of a rational by a positive natural number, written out with
mkRat: (a/b) / n = a/(b*n).  Used instead of the field division of ℚ so
that concrete values reduce inside the kernel. -/
def qdivNat (x : ℚ) (n : Nat) : ℚ := mkRat x.num (x.den * n)

/-- The division loop of number_prefix: after one initial division the
amount is divided by 1000 while it stays at least 1000 and a larger decimal
prefix exists (8 prefixes, indices 0-7).  The loop body runs at most seven
times, so a fuel of 7 is exact. -/
def sizeScaleGo : Nat → ℚ → Nat → SizeScale
  | 0, x, i => .scaled i x
  | fuel + 1, x, i =>
    if 1000 ≤ x ∧ i < 7 then sizeScaleGo fuel (qdivNat x 1000) (i + 1)
    else .scaled i x

def decimalScale (x : ℚ) : SizeScale :=
  if x < 1000 then .standalone x else sizeScaleGo 7 (qdivNat x 1000) 0

def scaleLetter (i : Nat) : String :=
  ["k", "M", "G", "T", "P", "E", "Z", "Y"].getD i ""

def natStr (n : Nat) : String := String.mk (Nat.toDigits 10 n)

/-- Rust Display ("{}") of a whole nonnegative f64 prints just its integer
digits.  The standalone branch of pretty_size only ever receives such
values: u64 byte counts below 1000. -/
def ratWhole (x : ℚ) : String := natStr x.num.toNat

/-- Rust "{:.1}" fixed formatting: one digit after the decimal point,
rounded to nearest.  For x = a/b with b > 0 the nearest integer to 10x is
the floor of 10x + 1/2 = (20a + b)/(2b), written with Int.fdiv so concrete
values reduce in the kernel.  The quantities reaching this in the claims
are exact tenths, so no rounding tie (where Rust would round half to even)
is involved. -/
def ratFixed1 (x : ℚ) : String :=
  let t := (Int.fdiv (20 * x.num + x.den) (2 * x.den)).toNat
  natStr (t / 10) ++ "." ++ natStr (t % 10)

def prettySize (size : Nat) : String :=
  match decimalScale (size : ℚ) with
  | .standalone x => ratWhole x ++ " B"
  | .scaled i x => ratFixed1 x ++ " " ++ scaleLetter i ++ "B"

/-! ## Directory listing: write_file_list and write_dir_title
(main.rs lines 226-295).

The renderer is modelled compositionally: fileListRows gives the rows of
the table (href, link text, size cell) and breadcrumbLinksL the links of the
heading (href, text), and formatFileList serializes them into the page.
The byte-exact output of the xml EventWriter (indentation and character
escaping) is abstracted by the serialization; every claim about the page is
a claim about its rows, links, status or headers, not about whitespace. -/

/-- Size cell of one row (main.rs lines 259-266): the pretty-printed length
for a plain file, an empty cell when the entry is not a plain file or its
metadata call failed. -/
def sizeCell (e : DirEntry) : String :=
  match e.meta with
  | .ok m => if m.isFile then prettySize m.len else ""
  | .error _ => ""

/-- Rows of the listing table (main.rs lines 243-269): entries whose name
is not valid UTF-8 are skipped by the filter_map; the link is the request
path joined with the file name.  On Unix the join of two valid strings is
valid, so the second skip (rel_path.to_str() returning None) and the
cfg(windows) backslash replacement cannot fire and have no counterpart
here. -/
def fileListRows (entries : List DirEntry) (reqPath : List Char) :
    List (List Char × List Char × String) :=
  entries.filterMap fun e =>
    (utf8Decode e.fileName).map fun name =>
      (pathJoinL reqPath name, name, sizeCell e)

/-- Links of the heading (main.rs lines 274-295): the pairs
(ancestor text, ancestor file name) with the last ancestor (the root "/")
popped and the order reversed, preceded by the fixed root link. -/
def breadcrumbLinksL (reqPath : List Char) : List (List Char × List Char) :=
  let parts :=
    (((ancestorsL reqPath).map fun p => (p, (fileNameL p).getD [])).dropLast).reverse
  (['/'], ['/']) :: parts

/-- Modelled from the spec: the bundled static stylesheet asset
(data/style.css, embedded with include_str), whose contents are not under
src/.  No claim depends on its text. -/
def stylesheet : String := "body"

def renderCrumb (c : List Char × List Char) : String :=
  "<a href=\"" ++ c.1.asString ++ "\">" ++ c.2.asString ++ "</a>"

def renderHeading (links : List (List Char × List Char)) : String :=
  match links with
  | [] => "<h1>Contents of </h1>"
  | root :: rest =>
    "<h1>Contents of " ++ renderCrumb root
      ++ String.join (rest.map fun c => renderCrumb c ++ "/") ++ "</h1>"

def renderRow (r : List Char × List Char × String) : String :=
  "<tr><td><a href=\"" ++ r.1.asString ++ "\">" ++ r.2.1.asString
    ++ "</a></td><td class=\"size\">" ++ r.2.2 ++ "</td></tr>"

/-- format_file_list / write_page (main.rs lines 226-232 and 297-317):
the complete listing document. -/
def formatFileList (entries : List DirEntry) (reqPath : List Char) : String :=
  "<!DOCTYPE html><html><head><title>Directory contents</title>"
    ++ "<meta charset=\"UTF-8\"/><style>" ++ stylesheet ++ "</style></head><body>"
    ++ renderHeading (breadcrumbLinksL reqPath)
    ++ "<table><tr><th>Filename</th><th class=\"size\">Size</th></tr>"
    ++ String.join ((fileListRows entries reqPath).map renderRow)
    ++ "</table></body></html>"

/-! ## Responses. -/

/-- bad_request (main.rs lines 209-213): status 400, fixed plain-text
body, no headers set. -/
def badRequestResponse : HttpResponse :=
  ⟨400, none, none, .text "Bad request"⟩

/-- io_error (main.rs lines 215-224): classify the error kind and put the
Display text of the error into a plain-text body. -/
def ioError (e : IoError) : HttpResponse :=
  let code :=
    match e.kind with
    | .notFound => 404
    | .permissionDenied => 403
    | .other => 500
  ⟨code, none, none, .text ("IO error: " ++ e.msg)⟩

/-- send_dir (main.rs lines 162-170): enumerate, render, and answer with a
default builder - status 200, no Content-Type, no Content-Length. -/
def sendDir (fs : FS) (path reqPath : List Char) : HttpResponse :=
  match fs.readDir path with
  | .error e => ioError e
  | .ok entries => ⟨200, none, none, .text (formatFileList entries reqPath)⟩

/-- send_file (main.rs lines 176-192): open the file, then answer 200 with
Content-Length taken from the metadata fetched during resolution,
Content-Type from the extension mapping, and the streamed file as body. -/
def sendFile (fs : FS) (path : List Char) (meta : Metadata) : HttpResponse :=
  match fs.openFile path with
  | .error e => ioError e
  | .ok _ =>
    ⟨200, some (getContentTypeL path), some meta.len, .fileStream path⟩

/-! ## Request resolution: process_request (main.rs lines 128-160). -/

inductive Resolution
  | badRequest
  | resolved (path reqPath : List Char)
  deriving DecidableEq, Repr

/-- The pure validation part of process_request (lines 131-150): decode,
require a leading "/", reject paths whose relative part contains a
parent-directory, root, or (on Windows) prefix component, join onto the
root, and re-check that the join still starts with the root.  No filesystem
call happens here; the metadata query only runs on the resolved result in
processRequest below. -/
def resolveRequest (root : List Char) (raw : List Nat) : Resolution :=
  match utf8Decode (percentDecode raw) with
  | none => .badRequest
  | some reqPath =>
    match stripRootL reqPath with
    | none => .badRequest
    | some resource =>
      if goesUpL resource then .badRequest
      else
        let path := pathJoinL root resource
        if pathStartsWithL path root then .resolved path reqPath
        else .badRequest

/-- process_request: resolve, stat, and dispatch to the directory or the
file branch. -/
def processRequest (root : List Char) (fs : FS) (raw : List Nat) : HttpResponse :=
  match resolveRequest root raw with
  | .badRequest => badRequestResponse
  | .resolved path reqPath =>
    match fs.metadata path with
    | .error e => ioError e
    | .ok meta =>
      if meta.isDir then sendDir fs path reqPath
      else sendFile fs path meta

/-! ## Concrete collaborators used by the witnesses. -/

/-- A filesystem on which every call fails with NotFound. -/
def fsEmpty : FS :=
  ⟨fun _ => .error ⟨.notFound, "entity not found"⟩,
   fun _ => .error ⟨.notFound, "entity not found"⟩,
   fun _ => .error ⟨.notFound, "entity not found"⟩⟩

/-- A filesystem whose root /r is an empty directory. -/
def fsDirEmpty : FS :=
  ⟨fun p => if p = "/r/".data then .ok ⟨.dir, 0⟩ else .error ⟨.notFound, "entity not found"⟩,
   fun p => if p = "/r/".data then .ok [] else .error ⟨.notFound, "entity not found"⟩,
   fun _ => .error ⟨.notFound, "entity not found"⟩⟩

/-- A filesystem holding one five-byte plain file /r/f.txt. -/
def fsOneFile : FS :=
  ⟨fun p => if p = "/r/f.txt".data then .ok ⟨.file, 5⟩ else .error ⟨.notFound, "entity not found"⟩,
   fun _ => .error ⟨.notFound, "entity not found"⟩,
   fun p => if p = "/r/f.txt".data then .ok () else .error ⟨.notFound, "entity not found"⟩⟩

/-- A directory entry whose name contains a decodable percent sequence. -/
def escEntry : DirEntry := ⟨strBytes "a%41b", .ok ⟨.file, 3⟩⟩

/-! ## Spec-side vocabulary for the breadcrumb claim. -/

/-- A well-formed URL path segment: nonempty, no separator, and not one of
the special dot components. -/
def ValidSeg (s : List Char) : Prop :=
  s ≠ [] ∧ '/' ∉ s ∧ s ≠ ['.'] ∧ s ≠ ['.', '.']

instance (s : List Char) : Decidable (ValidSeg s) := by
  unfold ValidSeg
  infer_instance

/-- The absolute path of a segment list: "/" followed by the slash-joined
segments ("/" itself for no segments). -/
def pathOfSegs (segs : List (List Char)) : List Char :=
  '/' :: joinSlash segs

/-- The expected breadcrumb tail, built left to right: one (href, text)
pair per segment, the href being the path accumulated so far - that is, the
cumulative path prefix up to and including that segment. -/
def crumbsFrom (pre : List Char) : List (List Char) → List (List Char × List Char)
  | [] => []
  | s :: rest => (pre ++ '/' :: s, s) :: crumbsFrom (pre ++ '/' :: s) rest

def crumbs (segs : List (List Char)) : List (List Char × List Char) :=
  crumbsFrom [] segs

/-- The expected ancestor chain of the path of a segment list: the path
itself, then the path of each shorter prefix, down to the root "/". -/
def ancList (segs : List (List Char)) : List (List Char) :=
  if _hnil : segs = [] then [['/']]
  else pathOfSegs segs :: ancList segs.dropLast
termination_by segs.length
decreasing_by
  cases hseg : segs with
  | nil => cases _hnil hseg
  | cons a t =>
    simp [hseg, List.length_dropLast]

/-! # Claim theorems -/

/-- C7: the human-readable size formatter maps byte counts 0, 999, 1000 and
1500000 to "0 B", "999 B", "1.0 kB" and "1.5 MB" respectively, dividing by
powers of 1000 and printing one rounded decimal place above the base
unit. -/
theorem pretty_size_values :
    prettySize 0 = "0 B"
    ∧ prettySize 999 = "999 B"
    ∧ prettySize 1000 = "1.0 kB"
    ∧ prettySize 1500000 = "1.5 MB" := by
  decide

/-- C2: io_error classifies a filesystem error as 404 for NotFound, 403 for
PermissionDenied and 500 for every other kind, and in every case the body is
plain text containing the Display text of the underlying error. -/
theorem io_error_classification (e : IoError) :
    ((e.kind = .notFound → (ioError e).status = 404)
      ∧ (e.kind = .permissionDenied → (ioError e).status = 403)
      ∧ (e.kind = .other → (ioError e).status = 500))
    ∧ ∃ pre post : String, (ioError e).body = .text (pre ++ e.msg ++ post) := by
  refine ⟨⟨fun h => by simp [ioError, h], fun h => by simp [ioError, h],
    fun h => by simp [ioError, h]⟩, "IO error: ", "", by simp [ioError]⟩

theorem io_error_classification_witness :
    (ioError ⟨.notFound, "No such file or directory (os error 2)"⟩).status = 404
    ∧ (ioError ⟨.permissionDenied, "Permission denied (os error 13)"⟩).status = 403
    ∧ (ioError ⟨.other, "unexpected end of file"⟩).status = 500 :=
  ⟨(io_error_classification _).1.1 rfl,
   (io_error_classification _).1.2.1 rfl,
   (io_error_classification _).1.2.2 rfl⟩

/-- C5 counterexample: the extension "xml" is mapped to text/xml, which is a
text type but carries no charset qualifier, so "charset qualifiers attached
for the text types" fails at this input. -/
theorem content_type_xml_no_charset :
    getContentType "/a/data.xml" = "text/xml"
    ∧ "text/".data.isPrefixOf (getContentType "/a/data.xml").data = true
    ∧ ¬ "charset".data <:+: (getContentType "/a/data.xml").data := by
  decide

/-- C5 amended: the content type is a function of the file extension alone,
realised by the fixed case-sensitive mapping css, htm/html, json, txt, xml
with application/octet-stream for everything else; the charset qualifier
"; charset=utf-8" is attached to the css, html and plain-text types but not
to text/xml. -/
theorem content_type_mapping :
    (∀ p q : List Char, extensionL p = extensionL q →
      getContentTypeL p = getContentTypeL q)
    ∧ getContentType "f.css" = "text/css; charset=utf-8"
    ∧ getContentType "f.htm" = "text/html; charset=utf-8"
    ∧ getContentType "f.html" = "text/html; charset=utf-8"
    ∧ getContentType "f.json" = "application/json"
    ∧ getContentType "f.txt" = "text/plain; charset=utf-8"
    ∧ getContentType "f.xml" = "text/xml"
    ∧ getContentType "f.CSS" = "application/octet-stream"
    ∧ getContentType "f.Txt" = "application/octet-stream"
    ∧ getContentType "f.png" = "application/octet-stream"
    ∧ getContentType "noext" = "application/octet-stream"
    ∧ getContentType ".hidden" = "application/octet-stream"
    ∧ getContentType "trailing." = "application/octet-stream" := by
  refine ⟨fun p q h => ?_, ?_⟩
  · unfold getContentTypeL
    rw [h]
  · decide

theorem content_type_mapping_witness :
    getContentTypeL "dir/a.txt".data = getContentTypeL "other/b.txt".data :=
  content_type_mapping.1 _ _ (by decide)

/-- C3: whenever the percent-decoded bytes of the request path are not
valid UTF-8, the response is the 400 Bad Request answer - no panic and no
5xx - produced before any filesystem call. -/
theorem malformed_encoding_rejected (root : List Char) (fs : FS) (raw : List Nat)
    (h : utf8Decode (percentDecode raw) = none) :
    processRequest root fs raw = badRequestResponse
    ∧ (processRequest root fs raw).status = 400 := by
  have hres : resolveRequest root raw = .badRequest := by
    unfold resolveRequest
    rw [h]
  constructor <;> simp [processRequest, hres, badRequestResponse]

theorem malformed_encoding_rejected_witness :
    processRequest "/r".data fsEmpty (strBytes "/%FF") = badRequestResponse :=
  (malformed_encoding_rejected _ _ _ (by decide)).1

/-- C4 counterexample: a request for "/" on a root that is an empty
directory is answered with status 200 and the rendered page, but with no
Content-Type header at all - send_dir builds its response from a default
builder and never sets one, so the response does not carry
"text/html; charset=UTF-8". -/
theorem dir_response_content_type_missing :
    (processRequest "/r".data fsDirEmpty (strBytes "/")).status = 200
    ∧ (processRequest "/r".data fsDirEmpty (strBytes "/")).contentType = none := by
  decide

/-- C4 amended: a request resolving to a readable directory is answered
with status 200 OK and a body equal to the rendered HTML listing page, but
the server sets no Content-Type header on it (the page instead declares
UTF-8 through a meta tag). -/
theorem dir_response_fields (fs : FS) (path reqPath : List Char)
    (entries : List DirEntry) (h : fs.readDir path = .ok entries) :
    sendDir fs path reqPath
      = ⟨200, none, none, .text (formatFileList entries reqPath)⟩ := by
  simp [sendDir, h]

theorem dir_response_fields_witness :
    sendDir fsDirEmpty "/r/".data "/".data
      = ⟨200, none, none, .text (formatFileList [] "/".data)⟩ :=
  dir_response_fields _ _ _ _ (by decide)

/-- C9: a request that resolves to a plain file which opens successfully is
answered with a Content-Length header equal to the byte count of the
metadata fetched during resolution (before the body stream begins) and the
Content-Type drawn from the extension mapping; the body streams the file. -/
theorem file_response_headers (root : List Char) (fs : FS) (raw : List Nat)
    (path reqPath : List Char) (m : Metadata)
    (hres : resolveRequest root raw = .resolved path reqPath)
    (hmeta : fs.metadata path = .ok m)
    (hfile : m.isDir = false)
    (hopen : fs.openFile path = .ok ()) :
    processRequest root fs raw
      = ⟨200, some (getContentTypeL path), some m.len, .fileStream path⟩ := by
  simp only [processRequest, hres, hmeta, hfile, Bool.false_eq_true, if_false,
    sendFile, hopen]

theorem file_response_headers_witness :
    processRequest "/r".data fsOneFile (strBytes "/f.txt")
      = ⟨200, some "text/plain; charset=utf-8", some 5, .fileStream "/r/f.txt".data⟩ :=
  file_response_headers "/r".data fsOneFile (strBytes "/f.txt")
    "/r/f.txt".data "/f.txt".data ⟨.file, 5⟩
    (by decide) (by decide) (by decide) (by decide)

/-- C10: every response whose status is 400 carries the fixed plain-text
body "Bad request" - the three input-error causes (undecodable path, path
without a leading separator, escaping path) are indistinguishable to the
client, and no other pipeline stage produces a 400. -/
theorem bad_request_uniform_body (root : List Char) (fs : FS) (raw : List Nat)
    (h : (processRequest root fs raw).status = 400) :
    (processRequest root fs raw).body = .text "Bad request" := by
  unfold processRequest at h ⊢
  cases hres : resolveRequest root raw with
  | badRequest => simp [hres, badRequestResponse]
  | resolved path reqPath =>
    simp only [hres] at h
    exfalso
    cases hmeta : fs.metadata path with
    | error e =>
      simp only [hmeta] at h
      cases hk : e.kind <;> simp [ioError, hk] at h
    | ok meta =>
      simp only [hmeta] at h
      by_cases hdir : meta.isDir = true
      · rw [if_pos hdir] at h
        unfold sendDir at h
        cases hrd : fs.readDir path with
        | error e =>
          simp only [hrd] at h
          cases hk : e.kind <;> simp [ioError, hk] at h
        | ok entries => simp only [hrd] at h; simp at h
      · rw [if_neg hdir] at h
        unfold sendFile at h
        cases hop : fs.openFile path with
        | error e =>
          simp only [hop] at h
          cases hk : e.kind <;> simp [ioError, hk] at h
        | ok u => simp only [hop] at h; simp at h

theorem bad_request_uniform_body_witness :
    (processRequest "/r".data fsEmpty (strBytes "/../secret")).body
      = .text "Bad request" :=
  bad_request_uniform_body _ _ _ (by decide)

/-! ## Lemmas relating a decoded path to its stripped relative part. -/

theorem splitSlash_cons_slash (l : List Char) :
    splitSlash ('/' :: l) = [] :: splitSlash l := by
  simp [splitSlash]

theorem filterMap_splitSlash_dropWhile (l : List Char) :
    (splitSlash (l.dropWhile fun c => c = '/')).filterMap chunkToComp
      = (splitSlash l).filterMap chunkToComp := by
  induction l with
  | nil => rfl
  | cons c rest ih =>
    by_cases hc : c = '/'
    · subst hc
      rw [List.dropWhile_cons_of_pos (by simp), splitSlash_cons_slash]
      rw [List.filterMap_cons_none (by simp [chunkToComp])]
      exact ih
    · rw [List.dropWhile_cons_of_neg (by simp [hc])]

theorem parentDir_mem_body (l : List Char)
    (h : PathComponent.parentDir ∈ componentsL l) :
    PathComponent.parentDir ∈ (splitSlash l).filterMap chunkToComp := by
  unfold componentsL at h
  split at h
  · rcases List.mem_cons.mp h with h1 | h1
    · cases h1
    · exact h1
  · split at h
    · rcases List.mem_cons.mp h with h1 | h1
      · cases h1
      · exact h1
    · exact h

theorem body_mem_componentsL (l : List Char)
    (h : PathComponent.parentDir ∈ (splitSlash l).filterMap chunkToComp) :
    PathComponent.parentDir ∈ componentsL l := by
  unfold componentsL
  split
  · exact List.mem_cons_of_mem _ h
  · split
    · exact List.mem_cons_of_mem _ h
    · exact h

/-- If the decoded request path contains a parent-directory component, so
does the relative part obtained by stripping the leading separator, and the
component check of the source fires on it. -/
theorem stripped_goes_up (s r : List Char) (hstrip : stripRootL s = some r)
    (hmem : PathComponent.parentDir ∈ componentsL s) : goesUpL r = true := by
  unfold stripRootL at hstrip
  split at hstrip
  · have hr : r = s.dropWhile fun c => c = '/' := by
      cases hstrip
      rfl
    have hbody : PathComponent.parentDir ∈ (splitSlash r).filterMap chunkToComp := by
      rw [hr, filterMap_splitSlash_dropWhile]
      exact parentDir_mem_body s hmem
    have hcomp := body_mem_componentsL r hbody
    exact List.any_eq_true.mpr ⟨PathComponent.parentDir, hcomp, rfl⟩
  · cases hstrip

/-- C1: containment.  First, if the decoded request path contains a
parent-directory component the resolver answers Bad Request; second, the
same happens whenever the relative part contains any component the
goes-up check matches (parent-directory or root marker; the drive/prefix
marker of the source is uninhabited on Unix); third, every successfully
resolved candidate path passes the post-join starts_with re-check against
the root.  resolveRequest is pure: the first filesystem call of
processRequest happens only after it returns a resolved path. -/
theorem resolver_containment (root : List Char) (raw : List Nat) :
    (∀ s, utf8Decode (percentDecode raw) = some s →
      PathComponent.parentDir ∈ componentsL s →
      resolveRequest root raw = .badRequest)
    ∧ (∀ s r, utf8Decode (percentDecode raw) = some s → stripRootL s = some r →
      goesUpL r = true → resolveRequest root raw = .badRequest)
    ∧ (∀ p q, resolveRequest root raw = .resolved p q →
      pathStartsWithL p root = true) := by
  refine ⟨?_, ?_, ?_⟩
  · intro s hdec hmem
    unfold resolveRequest
    simp only [hdec]
    cases hstrip : stripRootL s with
    | none => rfl
    | some r => simp [hstrip, stripped_goes_up s r hstrip hmem]
  · intro s r hdec hstrip hup
    unfold resolveRequest
    simp only [hdec, hstrip, hup]
    rfl
  · intro p q h
    unfold resolveRequest at h
    cases hdec : utf8Decode (percentDecode raw) with
    | none => simp [hdec] at h
    | some s =>
      simp only [hdec] at h
      cases hstrip : stripRootL s with
      | none => simp [hstrip] at h
      | some r =>
        simp only [hstrip] at h
        by_cases hup : goesUpL r = true
        · simp [hup] at h
        · simp only [hup, Bool.false_eq_true, if_false] at h
          by_cases hsw : pathStartsWithL (pathJoinL root r) root = true
          · rw [if_pos hsw] at h
            cases h
            exact hsw
          · simp [hsw] at h

theorem resolver_containment_witness :
    resolveRequest "/r".data (strBytes "/../etc/passwd") = .badRequest
    ∧ resolveRequest "/r".data (strBytes "/%2E%2E/etc") = .badRequest
    ∧ pathStartsWithL "/r/a/b".data "/r".data = true :=
  ⟨(resolver_containment "/r".data (strBytes "/../etc/passwd")).1
      "/../etc/passwd".data (by decide) (by decide),
   (resolver_containment "/r".data (strBytes "/%2E%2E/etc")).2.1
      "/../etc".data "../etc".data (by decide) (by decide) (by decide),
   (resolver_containment "/r".data (strBytes "/a/b")).2.2
      "/r/a/b".data "/a/b".data (by decide)⟩

/-- C6 counterexample: a directory entry named "a%41b" is rendered with the
link "/a%41b" - the file name is inserted into the href verbatim, without
percent-encoding - and that link is not percent-safe: sent back as a
request path it percent-decodes to the different byte string "/aAb", so the
emitted link does not survive URL percent-decoding. -/
theorem listing_link_not_percent_safe :
    fileListRows [escEntry] "/".data = [("/a%41b".data, "a%41b".data, "3 B")]
    ∧ percentDecode (strBytes "/a%41b") ≠ strBytes "/a%41b" := by
  decide

/-- C6 amended: every entry of a listing whose name decodes as UTF-8
produces exactly one row whose link is the request path joined with the
file name by the forward-slash separator (verbatim, with no
percent-encoding applied), every row arises that way, and entries whose
name is not valid UTF-8 are skipped without failing the page. -/
theorem listing_rows (entries : List DirEntry) (reqPath : List Char) :
    ((fileListRows entries reqPath).length
      = (entries.filter fun e => (utf8Decode e.fileName).isSome).length)
    ∧ (∀ e ∈ entries, ∀ name, utf8Decode e.fileName = some name →
      (pathJoinL reqPath name, name, sizeCell e) ∈ fileListRows entries reqPath)
    ∧ (∀ row ∈ fileListRows entries reqPath, ∃ e ∈ entries, ∃ name,
      utf8Decode e.fileName = some name
      ∧ row = (pathJoinL reqPath name, name, sizeCell e)) := by
  refine ⟨?_, ?_, ?_⟩
  · induction entries with
    | nil => rfl
    | cons e es ih =>
      cases hd : utf8Decode e.fileName <;>
        simp [fileListRows, List.filterMap_cons, List.filter_cons, hd] <;>
        simpa [fileListRows] using ih
  · intro e he name hname
    exact List.mem_filterMap.mpr ⟨e, he, by rw [hname]; rfl⟩
  · intro row hrow
    obtain ⟨e, he, hfe⟩ := List.mem_filterMap.mp hrow
    cases hd : utf8Decode e.fileName with
    | none => rw [hd] at hfe; cases hfe
    | some name =>
      rw [hd] at hfe
      cases hfe
      exact ⟨e, he, name, hd, rfl⟩

theorem listing_rows_witness :
    ("/a.txt".data, "a.txt".data, "3 B")
      ∈ fileListRows [⟨strBytes "a.txt", .ok ⟨.file, 3⟩⟩] "/".data :=
  (listing_rows _ _).2.1 _ (List.mem_singleton.mpr rfl) "a.txt".data (by decide)

/-! ## Lemmas for the breadcrumb claim. -/

theorem splitSlash_ne_nil (l : List Char) : splitSlash l ≠ [] := by
  cases l with
  | nil => simp [splitSlash]
  | cons c rest =>
    unfold splitSlash
    split
    · simp
    · split
      · simp
      · simp

theorem splitSlash_no_slash (s : List Char) (h : '/' ∉ s) : splitSlash s = [s] := by
  induction s with
  | nil => rfl
  | cons c rest ih =>
    have hc : c ≠ '/' := fun hh => h (hh ▸ List.mem_cons_self c rest)
    have hrest : '/' ∉ rest := fun hh => h (List.mem_cons_of_mem c hh)
    unfold splitSlash
    rw [if_neg hc, ih hrest]

theorem splitSlash_append (s r : List Char) (h : '/' ∉ s) :
    splitSlash (s ++ '/' :: r) = s :: splitSlash r := by
  induction s with
  | nil => simp [splitSlash]
  | cons c rest ih =>
    have hc : c ≠ '/' := fun hh => h (hh ▸ List.mem_cons_self c rest)
    have hrest : '/' ∉ rest := fun hh => h (List.mem_cons_of_mem c hh)
    rw [List.cons_append]
    simp only [splitSlash]
    rw [if_neg hc, ih hrest]

theorem splitSlash_joinSlash (segs : List (List Char)) (hne : segs ≠ [])
    (h : ∀ s ∈ segs, '/' ∉ s) : splitSlash (joinSlash segs) = segs := by
  induction segs with
  | nil => cases hne rfl
  | cons s rest ih =>
    cases rest with
    | nil =>
      exact splitSlash_no_slash s (h s (List.mem_cons_self s []))
    | cons r t =>
      have h1 : joinSlash (s :: r :: t) = s ++ '/' :: joinSlash (r :: t) := rfl
      rw [h1, splitSlash_append s _ (h s (List.mem_cons_self s _))]
      rw [ih (by simp) fun x hx => h x (List.mem_cons_of_mem s hx)]

theorem splitSlash_append_slash (l : List Char) :
    splitSlash (l ++ ['/']) = splitSlash l ++ [[]] := by
  induction l with
  | nil => rfl
  | cons c rest ih =>
    rw [List.cons_append]
    unfold splitSlash
    by_cases hc : c = '/'
    · rw [if_pos hc, if_pos hc, ih]
      rfl
    · rw [if_neg hc, if_neg hc, ih]
      obtain ⟨g, gs, hg⟩ : ∃ g gs, splitSlash rest = g :: gs := by
        cases hsp : splitSlash rest with
        | nil => cases splitSlash_ne_nil rest hsp
        | cons g gs => exact ⟨g, gs, rfl⟩
      rw [hg]
      rfl

theorem chunkToComp_valid (s : List Char) (h : ValidSeg s) :
    chunkToComp s = some (.normal s) := by
  obtain ⟨h1, _, h3, h4⟩ := h
  unfold chunkToComp
  rw [if_neg (by simp [h1, h3]), if_neg h4]

theorem filterMap_chunk_valid (segs : List (List Char))
    (h : ∀ s ∈ segs, ValidSeg s) :
    segs.filterMap chunkToComp = segs.map PathComponent.normal := by
  induction segs with
  | nil => rfl
  | cons s rest ih =>
    rw [List.filterMap_cons, chunkToComp_valid s (h s (List.mem_cons_self s rest)),
      List.map_cons, ih fun x hx => h x (List.mem_cons_of_mem s hx)]

theorem componentsL_pathOfSegs (segs : List (List Char))
    (h : ∀ s ∈ segs, ValidSeg s) :
    componentsL (pathOfSegs segs) = .rootDir :: segs.map .normal := by
  unfold componentsL pathOfSegs
  rw [if_pos (by simp), splitSlash_cons_slash,
    List.filterMap_cons_none (by simp [chunkToComp])]
  cases hseg : segs with
  | nil => simp [joinSlash, splitSlash, chunkToComp]
  | cons s rest =>
    rw [← hseg, splitSlash_joinSlash segs (by simp [hseg])
      (fun x hx => (h x hx).2.1), filterMap_chunk_valid segs h]

theorem componentsL_pathOfSegs_slash (segs : List (List Char))
    (h : ∀ s ∈ segs, ValidSeg s) :
    componentsL (pathOfSegs segs ++ ['/']) = .rootDir :: segs.map .normal := by
  have hsplit : splitSlash (pathOfSegs segs ++ ['/'])
      = splitSlash (pathOfSegs segs) ++ [[]] := splitSlash_append_slash _
  have hbody : (splitSlash (pathOfSegs segs ++ ['/'])).filterMap chunkToComp
      = (splitSlash (pathOfSegs segs)).filterMap chunkToComp := by
    rw [hsplit, List.filterMap_append]
    simp [chunkToComp]
  have hhead : (pathOfSegs segs ++ ['/']).head? = some '/' := by
    unfold pathOfSegs
    rw [List.cons_append]
    rfl
  have h1 := componentsL_pathOfSegs segs h
  unfold componentsL at h1 ⊢
  rw [if_pos hhead, hbody]
  rw [if_pos (by unfold pathOfSegs; rfl)] at h1
  exact h1

theorem fileName_pathOfSegs (segs : List (List Char)) (hne : segs ≠ [])
    (h : ∀ s ∈ segs, ValidSeg s) :
    fileNameL (pathOfSegs segs) = some (segs.getLastD []) := by
  unfold fileNameL
  rw [componentsL_pathOfSegs segs h, List.getLast?_cons, List.getLast?_map]
  cases hlast : segs.getLast? with
  | none => cases hne (List.getLast?_eq_none_iff.mp hlast)
  | some s => simp [List.getLastD_eq_getLast?, hlast]

theorem fileName_pathOfSegs_slash (segs : List (List Char)) (hne : segs ≠ [])
    (h : ∀ s ∈ segs, ValidSeg s) :
    fileNameL (pathOfSegs segs ++ ['/']) = some (segs.getLastD []) := by
  unfold fileNameL
  rw [componentsL_pathOfSegs_slash segs h, List.getLast?_cons, List.getLast?_map]
  cases hlast : segs.getLast? with
  | none => cases hne (List.getLast?_eq_none_iff.mp hlast)
  | some s => simp [List.getLastD_eq_getLast?, hlast]

theorem compsToText_normals (segs : List (List Char)) :
    compsToText (.rootDir :: segs.map .normal) = pathOfSegs segs := by
  simp only [compsToText, pathOfSegs, List.map_map]
  have hid : segs.map (compText ∘ PathComponent.normal) = segs := by
    have : (compText ∘ PathComponent.normal) = id := by
      funext s
      rfl
    rw [this, List.map_id]
  rw [hid]

theorem parent_of_components (l : List Char) (segs : List (List Char))
    (hcomp : componentsL l = .rootDir :: segs.map .normal) (hne : segs ≠ []) :
    parentL l = some (pathOfSegs segs.dropLast) := by
  obtain ⟨s, hlast⟩ : ∃ s, segs.getLast? = some s := by
    cases hl : segs.getLast? with
    | none => cases hne (List.getLast?_eq_none_iff.mp hl)
    | some s => exact ⟨s, rfl⟩
  have hlastc : (PathComponent.rootDir :: segs.map .normal).getLast?
      = some (.normal s) := by
    rw [List.getLast?_cons, List.getLast?_map, hlast]
    rfl
  have hdl : (PathComponent.rootDir :: segs.map .normal).dropLast
      = .rootDir :: segs.dropLast.map .normal := by
    cases segs with
    | nil => cases hne rfl
    | cons a t =>
      rw [List.map_cons, List.dropLast_cons₂, ← List.map_cons, ← List.map_dropLast]
  simp only [parentL, hcomp, hlastc, hdl, compsToText_normals]

theorem ancList_ne_nil (segs : List (List Char)) : ancList segs ≠ [] := by
  rw [ancList]
  split <;> simp

theorem ancList_cons (segs : List (List Char)) (h : segs ≠ []) :
    ancList segs = pathOfSegs segs :: ancList segs.dropLast := by
  rw [ancList]
  simp [h]

theorem valid_dropLast (segs : List (List Char)) (hv : ∀ s ∈ segs, ValidSeg s) :
    ∀ s ∈ segs.dropLast, ValidSeg s :=
  fun s hs => hv s ((List.dropLast_sublist segs).subset hs)

theorem ancestorsGo_pathOfSegs :
    ∀ n segs, segs.length = n → (∀ s ∈ segs, ValidSeg s) →
    ancestorsGo (n + 1) (pathOfSegs segs) = ancList segs := by
  intro n
  induction n with
  | zero =>
    intro segs hlen _
    have hnil : segs = [] := List.eq_nil_of_length_eq_zero hlen
    subst hnil
    have hL : ancestorsGo (0 + 1) (pathOfSegs []) = [['/']] := by decide
    rw [hL, ancList]
    simp
  | succ m ih =>
    intro segs hlen hv
    have hne : segs ≠ [] := by
      intro hh
      rw [hh] at hlen
      cases hlen
    have hpar : parentL (pathOfSegs segs) = some (pathOfSegs segs.dropLast) :=
      parent_of_components _ segs (componentsL_pathOfSegs segs hv) hne
    have hdllen : segs.dropLast.length = m := by
      rw [List.length_dropLast, hlen]
      omega
    have hstep : ancestorsGo (m + 1 + 1) (pathOfSegs segs)
        = pathOfSegs segs :: ancestorsGo (m + 1) (pathOfSegs segs.dropLast) := by
      simp only [ancestorsGo, hpar]
    rw [hstep, ancList_cons segs hne]
    rw [ih segs.dropLast hdllen (valid_dropLast segs hv)]

theorem ancestorsL_pathOfSegs_slash (segs : List (List Char)) (hne : segs ≠ [])
    (hv : ∀ s ∈ segs, ValidSeg s) :
    ancestorsL (pathOfSegs segs ++ ['/'])
      = (pathOfSegs segs ++ ['/']) :: ancList segs.dropLast := by
  unfold ancestorsL
  rw [componentsL_pathOfSegs_slash segs hv]
  have hpar : parentL (pathOfSegs segs ++ ['/']) = some (pathOfSegs segs.dropLast) :=
    parent_of_components _ segs (componentsL_pathOfSegs_slash segs hv) hne
  simp only [List.length_cons, List.length_map]
  have hstep : ancestorsGo (segs.length + 1) (pathOfSegs segs ++ ['/'])
      = (pathOfSegs segs ++ ['/']) :: ancestorsGo segs.length (pathOfSegs segs.dropLast) := by
    simp only [ancestorsGo, hpar]
  rw [hstep]
  have hdllen : segs.dropLast.length + 1 = segs.length := by
    rw [List.length_dropLast]
    cases segs with
    | nil => cases hne rfl
    | cons a t => simp
  rw [show segs.length = segs.dropLast.length + 1 from hdllen.symm]
  rw [ancestorsGo_pathOfSegs segs.dropLast.length segs.dropLast rfl
    (valid_dropLast segs hv)]

theorem joinSlash_cons (a : List Char) (l : List (List Char)) (h : l ≠ []) :
    joinSlash (a :: l) = a ++ '/' :: joinSlash l := by
  cases l with
  | nil => cases h rfl
  | cons b t => rfl

theorem crumbsFrom_append :
    ∀ (xs : List (List Char)) (pre s : List Char),
    crumbsFrom pre (xs ++ [s])
      = crumbsFrom pre xs ++ [(pre ++ '/' :: joinSlash (xs ++ [s]), s)] := by
  intro xs
  induction xs with
  | nil =>
    intro pre s
    rfl
  | cons a t ih =>
    intro pre s
    rw [List.cons_append]
    simp only [crumbsFrom]
    rw [ih (pre ++ '/' :: a) s]
    rw [joinSlash_cons a (t ++ [s]) (by simp)]
    simp [List.append_assoc]

theorem crumbs_append (xs : List (List Char)) (s : List Char) :
    crumbs (xs ++ [s]) = crumbs xs ++ [(pathOfSegs (xs ++ [s]), s)] := by
  unfold crumbs
  rw [crumbsFrom_append]
  rfl

theorem dropLast_cons_ne {α : Type} (a : α) (l : List α) (h : l ≠ []) :
    (a :: l).dropLast = a :: l.dropLast := by
  cases l with
  | nil => cases h rfl
  | cons b t => rw [List.dropLast_cons₂]

theorem ancList_pairs_rev :
    ∀ n segs, segs.length = n → (∀ s ∈ segs, ValidSeg s) →
    ((((ancList segs).map fun p => (p, (fileNameL p).getD [])).dropLast).reverse)
      = crumbs segs := by
  intro n
  induction n with
  | zero =>
    intro segs hlen _
    have hnil : segs = [] := List.eq_nil_of_length_eq_zero hlen
    subst hnil
    rw [ancList]
    simp [crumbs, crumbsFrom]
  | succ m ih =>
    intro segs hlen hv
    have hne : segs ≠ [] := by
      intro hh
      rw [hh] at hlen
      cases hlen
    have hdllen : segs.dropLast.length = m := by
      rw [List.length_dropLast, hlen]
      omega
    have hMne : (ancList segs.dropLast).map
        (fun p => (p, (fileNameL p).getD [])) ≠ [] := by
      intro hh
      exact ancList_ne_nil _ (List.map_eq_nil_iff.mp hh)
    rw [ancList_cons segs hne]
    simp only [List.map_cons, fileName_pathOfSegs segs hne hv, Option.getD_some]
    rw [dropLast_cons_ne _ _ hMne, List.reverse_cons]
    rw [ih segs.dropLast hdllen (valid_dropLast segs hv)]
    obtain ⟨gl, hgl⟩ : ∃ gl, segs.getLast? = some gl := by
      cases hl : segs.getLast? with
      | none => cases hne (List.getLast?_eq_none_iff.mp hl)
      | some gl => exact ⟨gl, rfl⟩
    have hsplit : segs.dropLast ++ [gl] = segs :=
      List.dropLast_append_getLast? gl hgl
    have hgld : segs.getLastD [] = gl := by
      rw [List.getLastD_eq_getLast?, hgl]
      rfl
    calc crumbs segs.dropLast ++ [(pathOfSegs segs, segs.getLastD [])]
        = crumbs segs.dropLast ++ [(pathOfSegs (segs.dropLast ++ [gl]), gl)] := by
          rw [hsplit, hgld]
      _ = crumbs (segs.dropLast ++ [gl]) := (crumbs_append _ _).symm
      _ = crumbs segs := by rw [hsplit]

/-- C8: for a directory request whose path consists of well-formed segments
(with trailing slash, as in the claim's /x/y/), the rendered heading holds a
breadcrumb trail that starts with the root link "/" followed by one link
per path segment, each href being that segment's own cumulative path prefix
(the last one being the full request path); in particular /x/y/ yields the
three links root, x at /x, and y at /x/y/. -/
theorem breadcrumb_trail (segs : List (List Char)) (hne : segs ≠ [])
    (hv : ∀ s ∈ segs, ValidSeg s) :
    breadcrumbLinksL (pathOfSegs segs ++ ['/'])
      = (['/'], ['/']) :: (crumbs segs.dropLast
          ++ [(pathOfSegs segs ++ ['/'], segs.getLastD [])]) := by
  unfold breadcrumbLinksL
  rw [ancestorsL_pathOfSegs_slash segs hne hv]
  simp only [List.map_cons, fileName_pathOfSegs_slash segs hne hv, Option.getD_some]
  have hMne : (ancList segs.dropLast).map
      (fun p => (p, (fileNameL p).getD [])) ≠ [] := by
    intro hh
    exact ancList_ne_nil _ (List.map_eq_nil_iff.mp hh)
  rw [dropLast_cons_ne _ _ hMne, List.reverse_cons]
  rw [ancList_pairs_rev segs.dropLast.length segs.dropLast rfl
    (valid_dropLast segs hv)]

theorem breadcrumb_trail_witness :
    breadcrumbLinksL "/x/y/".data
      = [(['/'], ['/']), ("/x".data, "x".data), ("/x/y/".data, "y".data)] := by
  have h := breadcrumb_trail ["x".data, "y".data] (by decide) (by decide)
  exact h
